import Mathlib

/-
Verification of the dregsy rule-evaluation core: the Mapping engine
(internal/pkg/sync/mapping.go) and the ECR registry listing backend
(internal/pkg/registry/ecr.go).

Go strings are modelled as `List Char` (`Str`); external collaborators that
live outside the two source files (the regex utility `util.CompileRegex`
together with the compiled pattern's MatchString / ReplaceAllString methods,
`tags.NewTagSet`, `strconv.ParseBool`, `time.ParseDuration`, and the AWS
paginated DescribeRepositories backend) are abstract parameters, so every
theorem holds for any behaviour of those collaborators.
-/

namespace Dregsy

/-- Go strings modelled as character lists. -/
abbrev Str := List Char

/-- Model of Go `strings.Split(s, sep)` for a one-character separator:
splits on every occurrence; the empty string yields one empty field. -/
def splitOnChar (c : Char) : Str → List Str
  | [] => [[]]
  | a :: rest =>
    let r := splitOnChar c rest
    if a = c then [] :: r
    else
      match r with
      | [] => [[a]]
      | x :: xs => (a :: x) :: xs

/-- Split a string at the first occurrence of `c`: `none` when `c` does not
occur, otherwise the parts before and after that first occurrence. -/
def splitFirst (c : Char) : Str → Option (Str × Str)
  | [] => none
  | a :: rest =>
    if a = c then some ([], rest)
    else
      match splitFirst c rest with
      | none => none
      | some (x, y) => some (a :: x, y)

/-- Model of Go `strings.SplitN(s, sep, 2)` for a one-character separator:
`[s]` when `sep` does not occur, else the two parts around the first one. -/
def splitN2 (c : Char) (s : Str) : List Str :=
  match splitFirst c s with
  | none => [s]
  | some (x, y) => [x, y]

/-! ## mapping.go -/

/-- The reserved marker `RegexpPrefix = "regex:"` from mapping.go. -/
def regexMarker : Str := "regex:".toList

/-- `isRegexp` from mapping.go: `strings.HasPrefix(expr, RegexpPrefix)`. -/
def isRegexp (expr : Str) : Bool := List.isPrefixOf regexMarker expr

/-- `normalizePath` from mapping.go: prepend `/` exactly when missing. -/
def normalizePath (p : Str) : Str :=
  if List.isPrefixOf "/".toList p then p else "/".toList ++ p

/-- The raw YAML-facing fields of `Mapping` from mapping.go. -/
structure Mapping where
  From : Str
  To : Str
  Tags : List Str
  Platform : Str
  OnlyActive : Str
  Since : Str

/-- The external collaborators of mapping.go, abstract over a compiled-regex
type `R` and a tag-set type `T`:
`compileRegex pat anchored` is `util.CompileRegex`; `matchString` and
`replaceAllString f src repl` are the compiled pattern's `MatchString` and
`ReplaceAllString`; `newTagSet` is `tags.NewTagSet`; `parseBool` is
`strconv.ParseBool` (whose error the code discards, so `none` stands for the
parse failure that Go pairs with the value `false`); `parseDuration` is
`time.ParseDuration`. -/
structure Env (R T : Type) where
  compileRegex : Str → Bool → Except Str R
  matchString : R → Str → Bool
  replaceAllString : R → Str → Str → Str
  newTagSet : List Str → Except Str T
  parseBool : Str → Option Bool
  parseDuration : Str → Except Str Int

/-- The state of a `Mapping` after a successful `validate()`: the raw fields
(with literal paths normalized in place, as the Go code mutates them) plus
the compiled fields. -/
structure CompiledMapping (R T : Type) where
  From : Str
  To : Str
  Tags : List Str
  Platform : Str
  OnlyActive : Str
  Since : Str
  fromFilter : Option R
  toFilter : Option R
  onlyActiveFlag : Bool
  sinceDuration : Int
  toReplace : Str
  tagSet : T

/-- The `from` step of `validate()`: compile an anchored pattern when the
marker is present (wrapping compile failures), else normalize the literal.
Returns the new `From` field and the `fromFilter`. -/
def validateFrom {R T : Type} (env : Env R T) (m : Mapping) :
    Except Str (Str × Option R) :=
  if isRegexp m.From then
    match env.compileRegex (m.From.drop regexMarker.length) true with
    | .error e =>
        .error ("'from' uses invalid regular expression '".toList ++
          m.From.drop regexMarker.length ++ "': ".toList ++ e)
    | .ok f => .ok (m.From, some f)
  else .ok (normalizePath m.From, none)

/-- The `to` step of `validate()`: on the regex form, split the remainder on
the first comma into pattern and replacement template (no comma is the
"replacement expression missing" error) and compile the pattern unanchored;
on a non-empty literal, normalize it. Returns the new `To` field, the
`toFilter` and the `toReplace` template. -/
def validateTo {R T : Type} (env : Env R T) (m : Mapping) :
    Except Str (Str × Option R × Str) :=
  if isRegexp m.To then
    match splitFirst ',' (m.To.drop regexMarker.length) with
    | some (pat, repl) =>
      match env.compileRegex pat false with
      | .error e =>
          .error ("'to' uses invalid regular expression '".toList ++
            pat ++ "': ".toList ++ e)
      | .ok f => .ok (m.To, some f, repl)
    | none => .error "replacement expression missing in 'to'".toList
  else if m.To ≠ [] then .ok (normalizePath m.To, none, [])
  else .ok (m.To, none, [])

/-- The `only_active` step of `validate()`: the flag defaults to `false`;
a non-empty raw value is parsed with the error discarded, so an unparseable
value leaves the Go zero value `false`. -/
def validateOnlyActive {R T : Type} (env : Env R T) (m : Mapping) : Bool :=
  if m.OnlyActive ≠ [] then (env.parseBool m.OnlyActive).getD false
  else false

/-- The `since` step of `validate()`: the duration defaults to `0`; a
non-empty raw value must parse, and the parse error is returned as-is. -/
def validateSince {R T : Type} (env : Env R T) (m : Mapping) :
    Except Str Int :=
  if m.Since ≠ [] then env.parseDuration m.Since
  else .ok 0

/-- `validate()` from mapping.go, over an optional receiver (`none` models
the nil pointer): checks the receiver and `From` non-emptiness, then runs
the from, to, tags, only_active and since steps in the source's order,
returning the first error or the fully compiled mapping. -/
def validate {R T : Type} (env : Env R T) :
    Option Mapping → Except Str (CompiledMapping R T)
  | none => .error "mapping is nil".toList
  | some m =>
    if m.From = [] then .error "mapping without 'From' path".toList
    else
      match validateFrom env m with
      | .error e => .error e
      | .ok (newFrom, ff) =>
        match validateTo env m with
        | .error e => .error e
        | .ok (newTo, tf, trep) =>
          match env.newTagSet m.Tags with
          | .error e => .error ("'tags' uses invalid format: ".toList ++ e)
          | .ok ts =>
            match validateSince env m with
            | .error e => .error e
            | .ok d =>
              .ok { From := newFrom, To := newTo, Tags := m.Tags,
                    Platform := m.Platform, OnlyActive := m.OnlyActive,
                    Since := m.Since, fromFilter := ff, toFilter := tf,
                    onlyActiveFlag := validateOnlyActive env m,
                    sinceDuration := d, toReplace := trep, tagSet := ts }

/-- `filterRepos` from mapping.go: in regex mode keep, in order, the repos
matched by the compiled `from` filter, normalized; in literal mode return
the input unchanged. A missing filter in regex mode (impossible after a
successful `validate()`) matches nothing. -/
def filterRepos {R T : Type} (env : Env R T) (c : CompiledMapping R T)
    (repos : List Str) : List Str :=
  if isRegexp c.From then
    (repos.filter fun r =>
      match c.fromFilter with
      | some f => env.matchString f r
      | none => false).map normalizePath
  else repos

/-- `mapPath` from mapping.go: regex `to` applies find-and-replace with the
stored template; a non-empty literal `to` is prepended to the path when
`from` is a regex and replaces it otherwise; an empty `to` is the identity.
A missing filter in regex mode (impossible after a successful `validate()`)
leaves the path unchanged. -/
def mapPath {R T : Type} (env : Env R T) (c : CompiledMapping R T)
    (p : Str) : Str :=
  if isRegexp c.To then
    match c.toFilter with
    | some f => env.replaceAllString f p c.toReplace
    | none => p
  else if c.To ≠ [] then
    if isRegexp c.From then c.To ++ p else c.To
  else p

/-- `hasSince` from mapping.go: the compiled duration is strictly positive. -/
def hasSince {R T : Type} (c : CompiledMapping R T) : Bool :=
  c.sinceDuration > 0

/-- `onlyActive` from mapping.go: the compiled boolean flag. -/
def onlyActive {R T : Type} (c : CompiledMapping R T) : Bool :=
  c.onlyActiveFlag

/-! ## ecr.go -/

/-- The boolean `ecr` computed by `IsECR` in ecr.go from the split hostname:
6 or 7 components, components 1, 2, 4, 5 equal to `dkr`, `ecr`, `amazonaws`,
`com`, and with 7 components also component 6 equal to `cn`. -/
def ecrCond (url : List Str) : Bool :=
  (url.length == 6 || url.length == 7) &&
    url.getD 1 [] == "dkr".toList && url.getD 2 [] == "ecr".toList &&
    url.getD 4 [] == "amazonaws".toList && url.getD 5 [] == "com".toList &&
    (url.length == 6 || url.getD 6 [] == "cn".toList)

/-- `IsECR` from ecr.go: split the hostname on `.`; when `ecrCond` holds the
result is `(true, component 3, component 0)` (region, account), else
`(false, "", "")`. -/
def IsECR (registry : Str) : Bool × Str × Str :=
  if ecrCond (splitOnChar '.' registry) then
    (true, (splitOnChar '.' registry).getD 3 [],
      (splitOnChar '.' registry).getD 0 [])
  else (false, [], [])

/-- The pagination loop of `Retrieve` from ecr.go, over an abstract backend
given as the sequence of page fetches (`.error` models a failed request).
Each fetched page is appended in full to the accumulator; the continuation
predicate `maxItems <= 0 || len(ret) < maxItems` is evaluated after the
append and decides whether the next page is requested. -/
def describePages (maxItems : Int) :
    List (Except Str (List Str)) → List Str → Except Str (List Str)
  | [], ret => .ok ret
  | .error e :: _, _ => .error e
  | .ok page :: rest, ret =>
    if maxItems ≤ 0 ∨ ((ret ++ page).length : Int) < maxItems then
      describePages maxItems rest (ret ++ page)
    else .ok (ret ++ page)

/-- `Retrieve` from ecr.go: a service-construction failure (`svcErr`) is
wrapped and returned with no result; otherwise the pagination loop runs from
an empty accumulator and a page-request failure is wrapped and returned with
no result, discarding the accumulated names. -/
def Retrieve (svcErr : Option Str) (maxItems : Int)
    (pages : List (Except Str (List Str))) : Except Str (List Str) :=
  match svcErr with
  | some e => .error ("error getting ECR service: ".toList ++ e)
  | none =>
    match describePages maxItems pages [] with
    | .error e => .error ("error listing ECR repositories: ".toList ++ e)
    | .ok ret => .ok ret

/-! ## A concrete environment for evaluating the model on closed inputs -/

/-- A concrete instance of the external collaborators: compilation returns
the pattern text itself, matching tests a prefix, replacement prepends the
template, tag sets are trivial, `parseBool` accepts `true`/`false` only and
`parseDuration` knows `1h` and `-1h` (in nanoseconds, Go's Duration unit). -/
def testEnv : Env Str Unit where
  compileRegex := fun pat _ => .ok pat
  matchString := fun f r => List.isPrefixOf f r
  replaceAllString := fun _ src repl => repl ++ src
  newTagSet := fun _ => .ok ()
  parseBool := fun s =>
    if s = "true".toList then some true
    else if s = "false".toList then some false
    else none
  parseDuration := fun s =>
    if s = "1h".toList then .ok 3600000000000
    else if s = "-1h".toList then .ok (-3600000000000)
    else .error ("time: invalid duration ".toList ++ s)

end Dregsy

namespace Dregsy

/-! ## Structural lemmas about validate -/

/-- Go's `SplitN(s, sep, 2)` yields two parts exactly when the separator
occurs, and the parts are those around its first occurrence; this is the
`len(parts) < 2` test of `validate()` in terms of `splitFirst`. -/
theorem splitN2_pair (c : Char) (s pat repl : Str) :
    splitN2 c s = [pat, repl] ↔ splitFirst c s = some (pat, repl) := by
  unfold splitN2
  cases h : splitFirst c s with
  | none => simp
  | some pr =>
    obtain ⟨x, y⟩ := pr
    simp

/-- Go's `SplitN(s, sep, 2)` yields fewer than two parts exactly when the
separator does not occur. -/
theorem splitN2_short (c : Char) (s : Str) :
    (splitN2 c s).length < 2 ↔ splitFirst c s = none := by
  unfold splitN2
  cases h : splitFirst c s with
  | none => simp
  | some pr =>
    obtain ⟨x, y⟩ := pr
    simp

/-- A path starting with a slash never carries the regex marker. -/
theorem isRegexp_cons_slash (p : Str) : isRegexp ('/' :: p) = false := rfl

/-- The empty path never carries the regex marker. -/
theorem isRegexp_nil : isRegexp [] = false := rfl

/-- Normalization never produces a path carrying the regex marker. -/
theorem isRegexp_normalizePath (p : Str) :
    isRegexp (normalizePath p) = false := by
  unfold normalizePath
  by_cases hp : List.isPrefixOf "/".toList p = true
  · rw [if_pos hp]
    cases p with
    | nil => simp [List.isPrefixOf] at hp
    | cons a t =>
      have ha : a = '/' := by
        simp only [List.isPrefixOf, Bool.and_eq_true, beq_iff_eq] at hp
        exact hp.1.symm
      rw [ha]
      exact isRegexp_cons_slash t
  · rw [if_neg hp]
    exact isRegexp_cons_slash p

/-- Normalization of a non-empty path is non-empty. -/
theorem normalizePath_ne_nil (p : Str) (hp : p ≠ []) :
    normalizePath p ≠ [] := by
  unfold normalizePath
  by_cases h : List.isPrefixOf "/".toList p = true
  · rw [if_pos h]; exact hp
  · rw [if_neg h]; exact List.cons_ne_nil _ _

/-- Inversion of the `from` step: in regex mode the path is kept and the
anchored compile result is stored; in literal mode the path is normalized
and no filter is stored. -/
theorem validateFrom_ok_inv {R T : Type} (env : Env R T) (m : Mapping)
    (nf : Str) (ff : Option R) (h : validateFrom env m = .ok (nf, ff)) :
    (isRegexp m.From = true ∧ nf = m.From ∧
      ∃ f, env.compileRegex (m.From.drop regexMarker.length) true = .ok f ∧
        ff = some f) ∨
    (isRegexp m.From = false ∧ nf = normalizePath m.From ∧ ff = none) := by
  unfold validateFrom at h
  split at h
  · rename_i hreg
    split at h
    · simp at h
    · rename_i f hf
      simp only [Except.ok.injEq, Prod.mk.injEq] at h
      exact Or.inl ⟨hreg, h.1.symm, f, hf, h.2.symm⟩
  · rename_i hreg
    simp only [Except.ok.injEq, Prod.mk.injEq] at h
    exact Or.inr ⟨Bool.not_eq_true _ ▸ eq_false_of_ne_true hreg,
      h.1.symm, h.2.symm⟩

/-- Inversion of the `to` step: regex mode splits off a (possibly empty)
replacement template after the first comma and stores the unanchored
compile result; a non-empty literal is normalized; an empty `to` is kept. -/
theorem validateTo_ok_inv {R T : Type} (env : Env R T) (m : Mapping)
    (nt : Str) (tf : Option R) (trep : Str)
    (h : validateTo env m = .ok (nt, tf, trep)) :
    (isRegexp m.To = true ∧ nt = m.To ∧
      ∃ pat repl f,
        splitFirst ',' (m.To.drop regexMarker.length) = some (pat, repl) ∧
        env.compileRegex pat false = .ok f ∧ tf = some f ∧ trep = repl) ∨
    (isRegexp m.To = false ∧ m.To ≠ [] ∧ nt = normalizePath m.To ∧
      tf = none ∧ trep = []) ∨
    (isRegexp m.To = false ∧ m.To = [] ∧ nt = [] ∧ tf = none ∧
      trep = []) := by
  unfold validateTo at h
  split at h
  · rename_i hreg
    split at h
    · rename_i pat repl hsplit
      split at h
      · simp at h
      · rename_i f hf
        simp only [Except.ok.injEq, Prod.mk.injEq] at h
        exact Or.inl ⟨hreg, h.1.symm, pat, repl, f, hsplit, hf,
          h.2.1.symm, h.2.2.symm⟩
    · simp at h
  · rename_i hreg
    have hreg2 : isRegexp m.To = false := eq_false_of_ne_true hreg
    split at h
    · rename_i hne
      simp only [Except.ok.injEq, Prod.mk.injEq] at h
      exact Or.inr (Or.inl ⟨hreg2, hne, h.1.symm, h.2.1.symm, h.2.2.symm⟩)
    · rename_i hne
      rw [not_ne_iff] at hne
      simp only [Except.ok.injEq, Prod.mk.injEq] at h
      exact Or.inr (Or.inr ⟨hreg2, hne, hne ▸ h.1.symm, h.2.1.symm,
        h.2.2.symm⟩)

/-- Inversion of a successful `validate()`: the receiver is non-nil, `From`
is non-empty, every step succeeded, and the compiled fields are exactly the
steps' outputs. -/
theorem validate_ok_inv {R T : Type} (env : Env R T) (m : Mapping)
    (c : CompiledMapping R T) (h : validate env (some m) = .ok c) :
    m.From ≠ [] ∧
    validateFrom env m = .ok (c.From, c.fromFilter) ∧
    validateTo env m = .ok (c.To, c.toFilter, c.toReplace) ∧
    (∃ ts, env.newTagSet m.Tags = .ok ts) ∧
    validateSince env m = .ok c.sinceDuration ∧
    c.onlyActiveFlag = validateOnlyActive env m ∧
    c.Tags = m.Tags ∧ c.Platform = m.Platform ∧
    c.OnlyActive = m.OnlyActive ∧ c.Since = m.Since := by
  unfold validate at h
  split at h
  · simp at h
  · rename_i m2 hm2
    injection hm2 with hm2
    subst hm2
    split at h
    · simp at h
    · rename_i hFrom
      split at h
      · simp at h
      · rename_i nf ff hvf
        split at h
        · simp at h
        · rename_i nt tf trep hvt
          split at h
          · simp at h
          · rename_i ts hts
            split at h
            · simp at h
            · rename_i d hd
              simp only [Except.ok.injEq] at h
              subst h
              exact ⟨hFrom, hvf, hvt, ⟨ts, hts⟩, hd, rfl, rfl, rfl, rfl, rfl⟩

/-- Lifting the step functions through `validate()`: once the receiver and
`From` checks pass and the `from` step succeeded, a `to`-step error is the
validation error; with all later steps succeeding, validation returns
exactly the record assembled from the steps; and a `since`-step error after
successful earlier steps is returned as-is. -/
theorem validate_eq_of_steps {R T : Type} (env : Env R T) (m : Mapping)
    (hFrom : m.From ≠ []) (nf : Str) (ff : Option R)
    (hvf : validateFrom env m = .ok (nf, ff)) :
    (∀ e, validateTo env m = .error e →
      validate env (some m) = .error e) ∧
    (∀ nt tf trep ts e, validateTo env m = .ok (nt, tf, trep) →
      env.newTagSet m.Tags = .ok ts → validateSince env m = .error e →
      validate env (some m) = .error e) ∧
    (∀ nt tf trep ts d, validateTo env m = .ok (nt, tf, trep) →
      env.newTagSet m.Tags = .ok ts → validateSince env m = .ok d →
      validate env (some m) = .ok
        { From := nf, To := nt, Tags := m.Tags, Platform := m.Platform,
          OnlyActive := m.OnlyActive, Since := m.Since, fromFilter := ff,
          toFilter := tf, onlyActiveFlag := validateOnlyActive env m,
          sinceDuration := d, toReplace := trep, tagSet := ts }) := by
  refine ⟨?_, ?_, ?_⟩
  · intro e hvt
    simp only [validate]
    rw [if_neg hFrom, hvf, hvt]
  · intro nt tf trep ts e hvt hts hsi
    simp only [validate]
    rw [if_neg hFrom, hvf, hvt, hts, hsi]
  · intro nt tf trep ts d hvt hts hsi
    simp only [validate]
    rw [if_neg hFrom, hvf, hvt, hts, hsi]

/-! ## Claims about IsECR -/

/-- C5: `IsECR` classifies a hostname as ECR exactly when splitting on `.`
gives 6 or 7 components with components 1, 2, 4, 5 equal to `dkr`, `ecr`,
`amazonaws`, `com` and, with 7 components, component 6 equal to `cn`; on a
positive classification region is component 3 and account is component 0,
and on a negative one both are empty. -/
theorem isECR_classification (registry : Str) :
    ((IsECR registry).1 = true ↔
      (((splitOnChar '.' registry).length = 6 ∨
        (splitOnChar '.' registry).length = 7) ∧
       (splitOnChar '.' registry).getD 1 [] = "dkr".toList ∧
       (splitOnChar '.' registry).getD 2 [] = "ecr".toList ∧
       (splitOnChar '.' registry).getD 4 [] = "amazonaws".toList ∧
       (splitOnChar '.' registry).getD 5 [] = "com".toList ∧
       ((splitOnChar '.' registry).length = 7 →
        (splitOnChar '.' registry).getD 6 [] = "cn".toList))) ∧
    ((IsECR registry).1 = true →
      (IsECR registry).2.1 = (splitOnChar '.' registry).getD 3 [] ∧
      (IsECR registry).2.2 = (splitOnChar '.' registry).getD 0 []) ∧
    ((IsECR registry).1 = false →
      (IsECR registry).2.1 = [] ∧ (IsECR registry).2.2 = []) := by
  have hmain : ∀ url : List Str, ecrCond url = true ↔
      ((url.length = 6 ∨ url.length = 7) ∧
        url.getD 1 [] = "dkr".toList ∧ url.getD 2 [] = "ecr".toList ∧
        url.getD 4 [] = "amazonaws".toList ∧ url.getD 5 [] = "com".toList ∧
        (url.length = 7 → url.getD 6 [] = "cn".toList)) := by
    intro url
    unfold ecrCond
    simp only [Bool.and_eq_true, Bool.or_eq_true, beq_iff_eq]
    constructor
    · rintro ⟨⟨⟨⟨⟨h67, h1⟩, h2⟩, h4⟩, h5⟩, h6⟩
      exact ⟨h67, h1, h2, h4, h5, fun h7 => h6.resolve_left (by omega)⟩
    · rintro ⟨h67, h1, h2, h4, h5, h6⟩
      refine ⟨⟨⟨⟨⟨h67, h1⟩, h2⟩, h4⟩, h5⟩, ?_⟩
      rcases h67 with h | h
      · exact Or.inl h
      · exact Or.inr (h6 h)
  unfold IsECR
  by_cases hb : ecrCond (splitOnChar '.' registry) = true
  · rw [if_pos hb]
    exact ⟨Iff.intro (fun _ => (hmain _).mp hb) (fun _ => rfl),
      fun _ => ⟨rfl, rfl⟩, fun h => Bool.noConfusion h⟩
  · rw [if_neg hb]
    exact ⟨Iff.intro (fun h => Bool.noConfusion h)
        (fun hp => (hb ((hmain _).mpr hp)).elim),
      fun h => Bool.noConfusion h, fun _ => ⟨rfl, rfl⟩⟩

/-- Closed instance of C5 on the spec's example hostname. -/
theorem isECR_classification_witness :
    (IsECR "123456789012.dkr.ecr.us-east-1.amazonaws.com".toList).1 = true ∧
    (IsECR "123456789012.dkr.ecr.us-east-1.amazonaws.com".toList).2.1 =
      "us-east-1".toList ∧
    (IsECR "123456789012.dkr.ecr.us-east-1.amazonaws.com".toList).2.2 =
      "123456789012".toList := by
  have h :=
    (isECR_classification "123456789012.dkr.ecr.us-east-1.amazonaws.com".toList).2.1
      (by decide)
  exact ⟨by decide, by rw [h.1]; decide, by rw [h.2]; decide⟩

/-- C6: `IsECR` is total: every input classifies, and any input whose
classification is negative — in particular any hostname with fewer than 6
dot-separated components, which never reaches the component tests — yields
exactly `(false, "", "")`. -/
theorem isECR_never_fails (registry : Str) :
    ((IsECR registry).1 = true ∨ IsECR registry = (false, [], [])) ∧
    ((splitOnChar '.' registry).length < 6 →
      IsECR registry = (false, [], [])) := by
  unfold IsECR
  by_cases hb : ecrCond (splitOnChar '.' registry) = true
  · rw [if_pos hb]
    refine ⟨Or.inl rfl, fun hlt => ?_⟩
    exfalso
    unfold ecrCond at hb
    simp only [Bool.and_eq_true, Bool.or_eq_true, beq_iff_eq] at hb
    obtain ⟨⟨⟨⟨⟨h67, _⟩, _⟩, _⟩, _⟩, _⟩ := hb
    omega
  · rw [if_neg hb]
    exact ⟨Or.inr rfl, fun _ => rfl⟩

/-- Closed instance of C6 on the spec's non-ECR example hostname. -/
theorem isECR_never_fails_witness :
    (splitOnChar '.' "registry.example.com".toList).length < 6 ∧
    IsECR "registry.example.com".toList = (false, [], []) :=
  ⟨by decide, (isECR_never_fails "registry.example.com".toList).2 (by decide)⟩

/-! ## Claims about Retrieve -/

/-- With no bound, the pagination loop consumes every page and appends each
in full. -/
theorem describePages_unbounded (maxItems : Int) (hm : maxItems ≤ 0)
    (pages : List (List Str)) (acc : List Str) :
    describePages maxItems (pages.map Except.ok) acc =
      .ok (acc ++ pages.flatten) := by
  induction pages generalizing acc with
  | nil => simp [describePages]
  | cons p rest ih =>
    simp only [List.map_cons, describePages]
    rw [if_pos (Or.inl hm)]
    rw [ih (acc ++ p)]
    simp [List.flatten_cons, List.append_assoc]

/-- With a positive bound and pages of at most 100 names, the pagination
loop returns some whole prefix of the pages, at least `min total maxItems`
names and at most `maxItems + 99` names. -/
theorem describePages_bounded (maxItems : Int) (hm : 0 < maxItems)
    (pages : List (List Str)) (hp : ∀ p ∈ pages, p.length ≤ 100)
    (acc : List Str) (hacc : (acc.length : Int) < maxItems) :
    ∃ k, describePages maxItems (pages.map Except.ok) acc =
        .ok (acc ++ (pages.take k).flatten) ∧
      min ((acc ++ pages.flatten).length : Int) maxItems ≤
        ((acc ++ (pages.take k).flatten).length : Int) ∧
      ((acc ++ (pages.take k).flatten).length : Int) ≤ maxItems + 99 := by
  induction pages generalizing acc with
  | nil =>
    refine ⟨0, by simp [describePages], ?_, ?_⟩
    · simp only [List.take_nil, List.flatten_nil, List.append_nil]
      omega
    · simp only [List.take_nil, List.flatten_nil, List.append_nil]
      omega
  | cons p rest ih =>
    simp only [List.map_cons, describePages]
    by_cases hc : ((acc ++ p).length : Int) < maxItems
    · rw [if_pos (Or.inr hc)]
      obtain ⟨k, hk, hmin, hmax⟩ :=
        ih (fun q hq => hp q (List.mem_cons_of_mem _ hq)) (acc ++ p) hc
      refine ⟨k + 1, ?_, ?_, ?_⟩
      · rw [hk]
        simp [List.take_succ_cons, List.flatten_cons, List.append_assoc]
      · simp only [List.take_succ_cons, List.flatten_cons, List.length_append,
          List.append_assoc] at hmin ⊢
        push_cast at hmin ⊢
        omega
      · simp only [List.take_succ_cons, List.flatten_cons, List.length_append,
          List.append_assoc] at hmax ⊢
        push_cast at hmax ⊢
        omega
    · rw [if_neg (by push_neg; exact ⟨by omega, by omega⟩)]
      have hple : p.length ≤ 100 := hp p (List.mem_cons_self p rest)
      have hc2 : maxItems ≤ (acc.length : Int) + (p.length : Int) := by
        simp only [List.length_append] at hc
        push_cast at hc
        omega
      refine ⟨1, ?_, ?_, ?_⟩
      · simp [List.flatten_cons]
      · simp only [List.take_succ_cons, List.take_zero, List.flatten_cons,
          List.flatten_nil, List.append_nil, List.length_append]
        push_cast
        omega
      · simp only [List.take_succ_cons, List.take_zero, List.flatten_cons,
          List.flatten_nil, List.append_nil, List.length_append]
        push_cast
        omega

/-- C7: on an all-successful paginated backend, `Retrieve` with
`maxItems <= 0` returns every name of every page; with `0 < maxItems` and
pages of at most 100 names (the fixed page size) it returns the names of a
whole prefix of the pages — every received page appended in full — with at
least `min total maxItems` and at most `maxItems + 99` names. -/
theorem retrieve_pagination (pages : List (List Str)) (maxItems : Int) :
    (maxItems ≤ 0 →
      Retrieve none maxItems (pages.map Except.ok) = .ok pages.flatten) ∧
    (0 < maxItems → (∀ p ∈ pages, p.length ≤ 100) →
      ∃ k, Retrieve none maxItems (pages.map Except.ok) =
          .ok ((pages.take k).flatten) ∧
        min (pages.flatten.length : Int) maxItems ≤
          ((pages.take k).flatten.length : Int) ∧
        ((pages.take k).flatten.length : Int) ≤ maxItems + 99) := by
  constructor
  · intro hm
    unfold Retrieve
    rw [describePages_unbounded maxItems hm pages []]
    simp
  · intro hm hp
    obtain ⟨k, hk, hmin, hmax⟩ :=
      describePages_bounded maxItems hm pages hp [] (by simpa using hm)
    refine ⟨k, ?_, by simpa using hmin, by simpa using hmax⟩
    unfold Retrieve
    rw [hk]
    simp

/-- Closed instance of C7: a two-page backend read unbounded returns all
names; read with `maxItems = 1` it stops after the first whole page. -/
theorem retrieve_pagination_witness :
    ((0 : Int) ≤ 0 ∧
      Retrieve none 0 ([["a".toList, "b".toList], ["c".toList]].map
        Except.ok) = .ok ["a".toList, "b".toList, "c".toList]) ∧
    ((0 : Int) < 1 ∧
      ∃ k, Retrieve none 1 ([["a".toList, "b".toList], ["c".toList]].map
          Except.ok) =
        .ok (([["a".toList, "b".toList], ["c".toList]].take k).flatten) ∧
      min (([["a".toList, "b".toList], ["c".toList]].flatten.length : Int))
          1 ≤
        ((([["a".toList, "b".toList], ["c".toList]].take k).flatten.length :
          Int)) ∧
      ((([["a".toList, "b".toList], ["c".toList]].take k).flatten.length :
        Int)) ≤ 1 + 99) := by
  constructor
  · refine ⟨le_refl 0, ?_⟩
    have h := (retrieve_pagination [["a".toList, "b".toList], ["c".toList]]
      0).1 (le_refl 0)
    rw [h]
    rfl
  · exact ⟨by decide,
      (retrieve_pagination [["a".toList, "b".toList], ["c".toList]] 1).2
        (by decide) (by decide)⟩

/-- When the run reaches a failing page request, the pagination loop
returns the raw error, discarding the accumulator. -/
theorem describePages_error (maxItems : Int) (e : Str)
    (good : List (List Str)) (rest : List (Except Str (List Str)))
    (acc : List Str)
    (h : maxItems ≤ 0 ∨ ((acc ++ good.flatten).length : Int) < maxItems) :
    describePages maxItems (good.map Except.ok ++ .error e :: rest) acc =
      .error e := by
  induction good generalizing acc with
  | nil => simp [describePages]
  | cons p g ih =>
    simp only [List.map_cons, List.cons_append, describePages]
    have hlen : ((acc ++ p).length : Int) + (g.flatten.length : Int) =
        ((acc ++ (p :: g).flatten).length : Int) := by
      simp [List.flatten_cons, List.length_append]
      ring
    rw [if_pos ?hc]
    case hc =>
      rcases h with h | h
      · exact Or.inl h
      · right
        omega
    apply ih
    rcases h with h | h
    · exact Or.inl h
    · right
      simp only [List.length_append, List.flatten_cons] at h ⊢
      push_cast at h ⊢
      omega

/-- C8: `Retrieve` fails atomically. A service-construction failure is
returned wrapped, with no repository list; and on a backend whose pages
succeed up to a failing request that the continuation predicate still
reaches, the wrapped request error is returned and the names accumulated
from the successful pages are discarded. -/
theorem retrieve_atomic_failure (maxItems : Int) (e : Str)
    (good : List (List Str)) (rest : List (Except Str (List Str)))
    (h : maxItems ≤ 0 ∨ ((good.flatten.length : Int) < maxItems)) :
    (∀ sErr pages, Retrieve (some sErr) maxItems pages =
      .error ("error getting ECR service: ".toList ++ sErr)) ∧
    Retrieve none maxItems (good.map Except.ok ++ .error e :: rest) =
      .error ("error listing ECR repositories: ".toList ++ e) := by
  refine ⟨fun sErr pages => rfl, ?_⟩
  unfold Retrieve
  rw [describePages_error maxItems e good rest [] (by simpa using h)]

/-- Closed instance of C8: page 1 succeeds with one name, the page-2
request fails, and `Retrieve` returns only the wrapped error. -/
theorem retrieve_atomic_failure_witness :
    ((0 : Int) ≤ 0 ∨ ((([["a".toList]].flatten.length : Int)) < 0)) ∧
    Retrieve none 0 ([["a".toList]].map Except.ok ++
        Except.error "boom".toList :: []) =
      .error ("error listing ECR repositories: ".toList ++ "boom".toList) :=
  ⟨Or.inl (le_refl 0),
    (retrieve_atomic_failure 0 "boom".toList [["a".toList]] []
      (Or.inl (le_refl 0))).2⟩

/-! ## Claims about validate, filterRepos and mapPath -/

/-- C3 counterexample: a `to` of the regex form with a comma but an empty
template after it — here `regex:x,` — is accepted by `validate()`, with an
empty replacement template, contradicting the claim that it is rejected. -/
theorem validate_accepts_empty_template :
    ∃ c, validate testEnv
        (some ⟨"a".toList, "regex:x,".toList, [], [], [], []⟩) =
      Except.ok c ∧ c.toReplace = [] :=
  ⟨_, rfl, rfl⟩

/-- C3 (amended): for a `to` of the regex form, `validate()` fails with
"replacement expression missing in 'to'" exactly when the remainder after
the marker has no comma; when a comma is present the part after it — even
when empty — is accepted as the replacement template and stored. -/
theorem validate_regex_to_comma {R T : Type} (env : Env R T) (m : Mapping)
    (hTo : isRegexp m.To = true) (hFrom : m.From ≠ [])
    (nf : Str) (ff : Option R)
    (hvf : validateFrom env m = .ok (nf, ff)) :
    (splitFirst ',' (m.To.drop regexMarker.length) = none →
      validate env (some m) =
        .error "replacement expression missing in 'to'".toList) ∧
    (∀ pat repl f ts d,
      splitFirst ',' (m.To.drop regexMarker.length) = some (pat, repl) →
      env.compileRegex pat false = .ok f →
      env.newTagSet m.Tags = .ok ts → validateSince env m = .ok d →
      ∃ c, validate env (some m) = .ok c ∧ c.toFilter = some f ∧
        c.toReplace = repl) := by
  obtain ⟨herr, _, hok⟩ := validate_eq_of_steps env m hFrom nf ff hvf
  constructor
  · intro hsplit
    apply herr
    unfold validateTo
    rw [if_pos hTo, hsplit]
  · intro pat repl f ts d hsplit hf hts hsi
    have hvt : validateTo env m = .ok (m.To, some f, repl) := by
      unfold validateTo
      rw [if_pos hTo]
      simp only [hsplit, hf]
    exact ⟨_, hok m.To (some f) repl ts d hvt hts hsi, rfl, rfl⟩

/-- Closed instance of the amended C3: `to = "regex:x,"` has a comma, and
`validate()` succeeds storing the empty template. -/
theorem validate_regex_to_comma_witness :
    splitFirst ','
        (("regex:x,".toList).drop regexMarker.length) =
      some ("x".toList, []) ∧
    ∃ c, validate testEnv
        (some ⟨"b".toList, "regex:x,".toList, [], [], [], []⟩) =
      Except.ok c ∧ c.toFilter = some "x".toList ∧ c.toReplace = [] :=
  ⟨rfl, (validate_regex_to_comma testEnv
      ⟨"b".toList, "regex:x,".toList, [], [], [], []⟩
      rfl (by decide) "/b".toList none rfl).2 "x".toList [] "x".toList () 0
      rfl rfl rfl rfl⟩

/-- C4: `validate()` is strict on `from` and `since` but lenient on
`only_active`: an empty `From` is an error; a non-empty `Since` whose parse
fails propagates that error (after the earlier steps succeeded); and an
unparseable `OnlyActive` is no error — any successfully validated mapping
whose `OnlyActive` does not parse has `onlyActive() = false`. -/
theorem validate_strict_lenient {R T : Type} (env : Env R T) :
    (∀ m : Mapping, m.From = [] →
      validate env (some m) = .error "mapping without 'From' path".toList) ∧
    (∀ (m : Mapping) (nf : Str) (ff : Option R) (nt : Str) (tf : Option R)
      (trep : Str) (ts : T) (e : Str), m.From ≠ [] →
      validateFrom env m = .ok (nf, ff) →
      validateTo env m = .ok (nt, tf, trep) →
      env.newTagSet m.Tags = .ok ts →
      m.Since ≠ [] → env.parseDuration m.Since = .error e →
      validate env (some m) = .error e) ∧
    (∀ (m : Mapping) (c : CompiledMapping R T),
      env.parseBool m.OnlyActive = none →
      validate env (some m) = .ok c → onlyActive c = false) := by
  refine ⟨?_, ?_, ?_⟩
  · intro m hm
    simp only [validate]
    rw [if_pos hm]
  · intro m nf ff nt tf trep ts e hFrom hvf hvt hts hS hdur
    obtain ⟨_, herr2, _⟩ := validate_eq_of_steps env m hFrom nf ff hvf
    apply herr2 nt tf trep ts e hvt hts
    unfold validateSince
    rw [if_pos hS, hdur]
  · intro m c hpb h
    obtain ⟨_, _, _, _, _, hoa, _⟩ := validate_ok_inv env m c h
    unfold onlyActive
    rw [hoa]
    unfold validateOnlyActive
    rw [hpb]
    simp

/-- Closed instance of C4 at the spec's test inputs: an empty `from`
errors, `since = "nope"` errors, and `only_active = "not-a-bool"`
validates with `onlyActive() = false`. -/
theorem validate_strict_lenient_witness :
    validate testEnv (some ⟨[], [], [], [], [], []⟩) =
      .error "mapping without 'From' path".toList ∧
    validate testEnv
        (some ⟨"a".toList, [], [], [], [], "nope".toList⟩) =
      .error ("time: invalid duration ".toList ++ "nope".toList) ∧
    onlyActive ((validate testEnv
        (some ⟨"a".toList, [], [], [], "not-a-bool".toList, []⟩)
      ).toOption.getD
        ⟨[], [], [], [], [], [], none, none, true, 0, [], ()⟩) = false := by
  refine ⟨(validate_strict_lenient testEnv).1 _ rfl, ?_, ?_⟩
  · exact (validate_strict_lenient testEnv).2.1
      ⟨"a".toList, [], [], [], [], "nope".toList⟩
      "/a".toList none [] none [] () ("time: invalid duration ".toList ++
        "nope".toList) (by decide) rfl rfl rfl (by decide) rfl
  · exact (validate_strict_lenient testEnv).2.2
      ⟨"a".toList, [], [], [], "not-a-bool".toList, []⟩ _ rfl rfl

/-- C1: for every validated mapping, `mapPath` is the claimed case split:
a regex `to` applies the compiled pattern's find-and-replace with the
stored template, both obtained from the first-comma split of the raw `to`;
a non-empty literal `to` (held normalized) is prepended to the source path
when `from` is a regex and returned verbatim when `from` is literal; an
empty `to` is the identity. -/
theorem mapPath_cases {R T : Type} (env : Env R T) (m : Mapping)
    (c : CompiledMapping R T) (h : validate env (some m) = .ok c)
    (p : Str) :
    (isRegexp m.To = true →
      ∃ pat repl f,
        splitFirst ',' (m.To.drop regexMarker.length) = some (pat, repl) ∧
        env.compileRegex pat false = .ok f ∧ c.toFilter = some f ∧
        c.toReplace = repl ∧
        mapPath env c p = env.replaceAllString f p repl) ∧
    (isRegexp m.To = false → m.To ≠ [] →
      c.To = normalizePath m.To ∧
      mapPath env c p =
        (if isRegexp m.From = true then c.To ++ p else c.To)) ∧
    (m.To = [] → mapPath env c p = p) := by
  obtain ⟨hFrom, hvf, hvt, -, -, -, -, -, -, -⟩ := validate_ok_inv env m c h
  have hto := validateTo_ok_inv env m c.To c.toFilter c.toReplace hvt
  have hfrom := validateFrom_ok_inv env m c.From c.fromFilter hvf
  have hFR : isRegexp c.From = isRegexp m.From := by
    rcases hfrom with ⟨ht, hEq, -⟩ | ⟨hf2, hEq, -⟩
    · rw [hEq]
    · rw [hEq, isRegexp_normalizePath, hf2]
  refine ⟨?_, ?_, ?_⟩
  · intro hreg
    rcases hto with ⟨-, hTo, pat, repl, f, hsplit, hf, htf, htrep⟩ |
      ⟨hfalse, -⟩ | ⟨hfalse, -⟩
    · refine ⟨pat, repl, f, hsplit, hf, htf, htrep, ?_⟩
      unfold mapPath
      rw [if_pos (by rw [hTo]; exact hreg)]
      rw [htf, htrep]
    · rw [hreg] at hfalse
      exact Bool.noConfusion hfalse
    · rw [hreg] at hfalse
      exact Bool.noConfusion hfalse
  · intro hregF hne
    rcases hto with ⟨htrue, -⟩ | ⟨-, -, hTo, -, -⟩ | ⟨-, hnil, -⟩
    · rw [hregF] at htrue
      exact Bool.noConfusion htrue
    · refine ⟨hTo, ?_⟩
      unfold mapPath
      rw [if_neg (by rw [hTo, isRegexp_normalizePath]; simp)]
      rw [if_pos (by rw [hTo]; exact normalizePath_ne_nil m.To hne)]
      rw [hFR]
    · exact absurd hnil hne
  · intro hnil
    rcases hto with ⟨htrue, -⟩ | ⟨-, hne, -⟩ | ⟨-, -, hcTo, -, -⟩
    · rw [hnil] at htrue
      exact Bool.noConfusion htrue
    · exact absurd hnil hne
    · unfold mapPath
      rw [hcTo]
      simp [isRegexp_nil]

/-- Closed instances of C1, one per branch: find-and-replace for a regex
`to`, prefix concatenation for a literal `to` under a regex `from`, and
identity for an empty `to`. -/
theorem mapPath_cases_witness :
    (∃ c, validate testEnv
        (some ⟨"a".toList, "regex:x,y".toList, [], [], [], []⟩) =
      Except.ok c ∧ mapPath testEnv c "q".toList = "yq".toList) ∧
    (∃ c, validate testEnv
        (some ⟨"regex:f".toList, "b".toList, [], [], [], []⟩) =
      Except.ok c ∧ mapPath testEnv c "/q".toList = "/b/q".toList) ∧
    (∃ c, validate testEnv
        (some ⟨"a".toList, [], [], [], [], []⟩) =
      Except.ok c ∧ mapPath testEnv c "q".toList = "q".toList) := by
  refine ⟨⟨_, rfl, ?_⟩, ⟨_, rfl, ?_⟩, ⟨_, rfl, ?_⟩⟩
  · obtain ⟨pat, repl, f, hsplit, hf, htf, htrep, hmap⟩ :=
      (mapPath_cases testEnv ⟨"a".toList, "regex:x,y".toList, [], [], [],
        []⟩ _ rfl "q".toList).1 rfl
    rw [hmap]
    have h1 : some "x".toList = some f := htf
    have h2 : "y".toList = repl := htrep
    injection h1 with h1
    subst h1
    subst h2
    rfl
  · obtain ⟨hTo, hmap⟩ :=
      (mapPath_cases testEnv ⟨"regex:f".toList, "b".toList, [], [], [],
        []⟩ _ rfl "/q".toList).2.1 rfl (by decide)
    rw [hmap]
    rfl
  · exact (mapPath_cases testEnv ⟨"a".toList, [], [], [], [], []⟩ _ rfl
      "q".toList).2.2 rfl

/-- C2: for every validated mapping, with a regex `from` the filter keeps
exactly the matching repositories — a subsequence of the input, so order is
preserved — each normalized, and the empty list (not a failure) when none
match; with a literal `from` the input is returned unchanged; and
normalization only prepends a missing leading slash, leaving everything
else of the path untouched. -/
theorem filterRepos_spec {R T : Type} (env : Env R T) (m : Mapping)
    (c : CompiledMapping R T) (h : validate env (some m) = .ok c)
    (repos : List Str) :
    (isRegexp m.From = true →
      ∃ f, env.compileRegex (m.From.drop regexMarker.length) true = .ok f ∧
        c.fromFilter = some f ∧
        filterRepos env c repos =
          (repos.filter (fun r => env.matchString f r)).map normalizePath ∧
        List.Sublist (repos.filter (fun r => env.matchString f r)) repos ∧
        ((∀ r ∈ repos, env.matchString f r = false) →
          filterRepos env c repos = [])) ∧
    (isRegexp m.From = false → filterRepos env c repos = repos) ∧
    (∀ q : Str, List.isPrefixOf "/".toList q = true →
      normalizePath q = q) ∧
    (∀ q : Str, ¬ List.isPrefixOf "/".toList q = true →
      normalizePath q = '/' :: q) := by
  obtain ⟨-, hvf, -, -, -, -, -, -, -, -⟩ := validate_ok_inv env m c h
  have hfrom := validateFrom_ok_inv env m c.From c.fromFilter hvf
  refine ⟨?_, ?_, ?_, ?_⟩
  · intro hreg
    rcases hfrom with ⟨-, hEq, f, hf, hff⟩ | ⟨hfalse, -⟩
    · have hfil : filterRepos env c repos =
          (repos.filter (fun r => env.matchString f r)).map normalizePath := by
        unfold filterRepos
        rw [if_pos (by rw [hEq]; exact hreg)]
        simp only [hff]
      refine ⟨f, hf, hff, hfil, List.filter_sublist _, ?_⟩
      intro hnone
      rw [hfil]
      have hnil : repos.filter (fun r => env.matchString f r) = [] := by
        rw [List.filter_eq_nil_iff]
        intro a ha
        simp [hnone a ha]
      rw [hnil]
      rfl
    · rw [hreg] at hfalse
      exact Bool.noConfusion hfalse
  · intro hregF
    rcases hfrom with ⟨htrue, -⟩ | ⟨-, hEq, -⟩
    · rw [hregF] at htrue
      exact Bool.noConfusion htrue
    · unfold filterRepos
      rw [if_neg (by rw [hEq, isRegexp_normalizePath]; simp)]
  · intro q hq
    unfold normalizePath
    rw [if_pos hq]
  · intro q hq
    unfold normalizePath
    rw [if_neg hq]
    rfl

/-- Closed instance of C2 mirroring the spec's example: a regex `from`
keeps only the matching repository and normalizes it. -/
theorem filterRepos_spec_witness :
    ∃ c, validate testEnv
        (some ⟨"regex:foo".toList, [], [], [], [], []⟩) =
      Except.ok c ∧
      filterRepos testEnv c ["foo/a".toList, "bar/b".toList] =
        ["/foo/a".toList] := by
  refine ⟨_, rfl, ?_⟩
  obtain ⟨f, hf, hff, hfil, hsub, hnil⟩ :=
    (filterRepos_spec testEnv ⟨"regex:foo".toList, [], [], [], [], []⟩ _
      rfl ["foo/a".toList, "bar/b".toList]).1 rfl
  rw [hfil]
  have h1 : some "foo".toList = some f := hff
  injection h1 with h1
  subst h1
  rfl

/-- C9: `validate()` on a nil `Mapping` receiver returns the descriptive
error "mapping is nil" instead of dereferencing the receiver. -/
theorem validate_nil_mapping {R T : Type} (env : Env R T) :
    validate env none = .error "mapping is nil".toList := rfl

/-- C10: a `since` that parses — to any duration, negative included —
passes `validate()`, the parsed value is stored, and `hasSince()` holds
exactly when that value is strictly positive, so zero and negative
durations both mean no time filter. -/
theorem hasSince_positivity {R T : Type} (env : Env R T) (m : Mapping)
    (hFrom : m.From ≠ []) (nf : Str) (ff : Option R)
    (hvf : validateFrom env m = .ok (nf, ff))
    (nt : Str) (tf : Option R) (trep : Str)
    (hvt : validateTo env m = .ok (nt, tf, trep))
    (ts : T) (hts : env.newTagSet m.Tags = .ok ts)
    (hS : m.Since ≠ []) (d : Int)
    (hd : env.parseDuration m.Since = .ok d) :
    ∃ c, validate env (some m) = .ok c ∧ c.sinceDuration = d ∧
      (hasSince c = true ↔ 0 < d) ∧ (d ≤ 0 → hasSince c = false) := by
  obtain ⟨_, _, hok⟩ := validate_eq_of_steps env m hFrom nf ff hvf
  have hsi : validateSince env m = .ok d := by
    unfold validateSince
    rw [if_pos hS, hd]
  refine ⟨_, hok nt tf trep ts d hvt hts hsi, rfl, ?_, ?_⟩
  · unfold hasSince
    simp
  · intro hd0
    unfold hasSince
    simp only [decide_eq_false_iff_not]
    omega

/-- Closed instance of C10: `since = "-1h"` parses to a negative duration,
validation succeeds, and `hasSince()` is false. -/
theorem hasSince_positivity_witness :
    ∃ c, validate testEnv
        (some ⟨"a".toList, [], [], [], [], "-1h".toList⟩) =
      Except.ok c ∧ c.sinceDuration = -3600000000000 ∧
      (hasSince c = true ↔ (0 : Int) < -3600000000000) ∧
      ((-3600000000000 : Int) ≤ 0 → hasSince c = false) :=
  hasSince_positivity testEnv
    ⟨"a".toList, [], [], [], [], "-1h".toList⟩
    (by decide) "/a".toList none rfl [] none [] rfl () rfl (by decide)
    (-3600000000000) rfl

end Dregsy
